import Mathlib

/-!
Shallow embedding of the TPI-LLM memory-windowed weight-streaming scheduler
(`src/tpi_llm/memory/mem_manager.py`) and the communication-overlap control
flow of the Llama forward pass (`src/tpi_llm/models/llama/modeling_llama.py`).

Weight blocks are identified by the canonical names generated in
`MemoryManager.__init__`: `"input"`, `"self_attn.{l}"` / `"mlp.{l}"` for each
decoder layer `l`, and `"output"`.  We represent them by the inductive type
`Block`; tensor payloads are represented by `Nat` values (the numeric content
of a tensor is delegated math, opaque to the scheduler), and a tensor slot in
the model's state dict is `Option Nat`, where `none` models storage whose
`data` has been de-referenced.
-/

/-- A weight block name, following the canonical naming of
`MemoryManager.__init__`: `"input"`, `"self_attn.{l}"`, `"mlp.{l}"`,
`"output"`.  Values such as `Block.attn numLayers` represent well-formed names
that are outside the canonical list (the forward pass produces
`f"self_attn.{last_layer+1}"`, which is such a name). -/
inductive Block where
  | input : Block
  | attn (l : Nat) : Block
  | mlp (l : Nat) : Block
  | output : Block
deriving DecidableEq, Repr

/-- Static configuration of one `MemoryManager` instance:
`numLayers` is `model.config.num_hidden_layers`, `memWindow` is
`args.memory_window` (the deque `maxlen`), `files b` is the content of the
shard file for block `b` (`none` models a missing file, raising
`FileNotFoundError` on open; `some kvs` is the deserialized mapping from
parameter name to tensor payload), `allLayers` is
`set(model.state_dict().keys())`, and `isCuda` tells whether
`model.device` is a CUDA device. -/
structure Cfg where
  numLayers : Nat
  memWindow : Nat
  files : Block → Option (List (String × Nat))
  allLayers : List String
  isCuda : Bool

/-- `self._all_blocks`: `["input"] + [template(l, t) for l in range(L) for t
in [self_attn, mlp]] + ["output"]`. -/
def allBlocks (cfg : Cfg) : List Block :=
  [Block.input] ++
    ((List.range cfg.numLayers).flatMap fun l => [Block.attn l, Block.mlp l]) ++
    [Block.output]

/-- Python `list.index(b)`: index of the first occurrence of `b` (the Python
call raises when `b` is absent; it is only reached on members, and we return
the list length in the unreachable missing case). -/
def listIndex (b : Block) : List Block → Nat
  | [] => 0
  | c :: rest => if c = b then 0 else listIndex b rest + 1

/-- `self._all_blocks.index(block_name)`. -/
def blockIndex (cfg : Cfg) (b : Block) : Nat :=
  listIndex b (allBlocks cfg)

/-- Mutable state of a `MemoryManager` together with the model storage it
mutates: `loaded` is the deque `self._loaded_blocks` (front of the deque at
the head of the list), `layersInBlock` is `self._layers_in_block`, and
`stateDict` maps a parameter name to its tensor slot in
`self._model.state_dict()` (`none` for a de-referenced slot). -/
structure MMState where
  loaded : List Block
  layersInBlock : Block → List String
  stateDict : String → Option Nat

/-- State at `MemoryManager.__init__`: empty deque, an empty parameter list
for every block, and pre-allocated (populated) storage for every model
parameter. -/
def initState (cfg : Cfg) : MMState :=
  { loaded := []
    layersInBlock := fun _ => []
    stateDict := fun k => if k ∈ cfg.allLayers then some 0 else none }

/-- Errors raised by the scheduler, mirroring the Python exceptions. -/
inductive Err where
  | valueError (b : Block)
  | fileNotFound (path : String)
  | keyError (b : Block)
deriving DecidableEq, Repr

/-- Modelled from the spec: the per-block shard file paths (`input.bin`,
`attn_{layer}.bin`, `mlp_{layer}.bin`, `output.bin`, spec section 6).  The
path constants `INPUT_SAVE_PATH`, `ATTN_SAVE_PATH`, `MLP_SAVE_PATH` and
`OUTPUT_SAVE_PATH` live in `tpi_llm/utils.py`, which is not part of the
provided sources; only the relative file name matters here. -/
def binPath : Block → String
  | Block.input => "input.bin"
  | Block.attn l => "attn_" ++ toString l ++ ".bin"
  | Block.mlp l => "mlp_" ++ toString l ++ ".bin"
  | Block.output => "output.bin"

/-- `collections.deque(maxlen := W).append b`: appends on the right and, when
the deque already holds `W` items, silently discards from the left. -/
def dequeAppend (W : Nat) (q : List Block) (b : Block) : List Block :=
  if q.length < W then q ++ [b]
  else (q ++ [b]).drop (q.length + 1 - W)

/-- The parameter-copy loop of `_load_block_until_filled`: for every
`(key, weight)` in the deserialized file, if `key` is a model parameter,
copy `weight` into the existing storage slot in place
(`self._model.state_dict()[key].copy_(weight)`) and append `key` to
`self._layers_in_block[block]`. -/
def loadParams (cfg : Cfg) (b : Block) :
    List (String × Nat) → MMState → MMState
  | [], σ => σ
  | kv :: rest, σ =>
    loadParams cfg b rest
      (if kv.1 ∈ cfg.allLayers then
        { σ with
          stateDict := fun k => if k = kv.1 then some kv.2 else σ.stateDict k
          layersInBlock := fun c =>
            if c = b then σ.layersInBlock b ++ [kv.1] else σ.layersInBlock c }
      else σ)

/-- Result of one scheduler operation.  `st` and `err` are the real outcome
(Python leaves all mutations made before an exception in place, so `st` is
meaningful even when `err` is `some`); `released` lists the blocks passed to
`_release_block` in order, `appended` the blocks appended to the deque in
order, and `trace` records the deque contents after every single deque
mutation (each `popleft` and each `append`) — ghost observations used to
state invariants, not present in the Python state. -/
structure TrackRes where
  st : MMState
  err : Option Err
  released : List Block
  appended : List Block
  trace : List (List Block)

/-- `MemoryManager._release_block`: raises `KeyError` when the block is not a
key of `_layers_in_block` (its keys are exactly the canonical blocks);
otherwise, for every recorded parameter key of the block, if the tensor lives
on CUDA its `data` is set to `None` (de-referencing the storage), while for a
CPU tensor the code only does `del tensor_`, which deletes the local Python
name and leaves the storage contents untouched. -/
def releaseBlock (cfg : Cfg) (b : Block) (σ : MMState) : MMState × Option Err :=
  if b ∈ allBlocks cfg then
    ({ σ with
       stateDict :=
         (σ.layersInBlock b).foldl
           (fun sd k =>
             if cfg.isCuda then fun k' => if k' = k then none else sd k'
             else sd)
           σ.stateDict },
     none)
  else (σ, some (Err.keyError b))

/-- The release loop of `_track_func`, recursing on the deque contents
(`w` is the current deque, kept in sync with `σ.loaded`): while the deque is
nonempty and its front is strictly before `b` in canonical order (or
`b = input`), pop the front and release it. -/
def releaseLoopAux (cfg : Cfg) (b : Block) :
    List Block → MMState → MMState × Option Err × List Block × List (List Block)
  | [], σ => ({ σ with loaded := [] }, none, [], [])
  | cur :: rest, σ =>
    if b = Block.input ∨ blockIndex cfg cur < blockIndex cfg b then
      match releaseBlock cfg cur { σ with loaded := rest } with
      | (σ1, some e) => (σ1, some e, [cur], [rest])
      | (σ1, none) =>
        let r := releaseLoopAux cfg b rest σ1
        (r.1, r.2.1, cur :: r.2.2.1, rest :: r.2.2.2)
    else ({ σ with loaded := cur :: rest }, none, [], [])

/-- The release phase of `_track_func` run on the current state. -/
def releaseLoop (cfg : Cfg) (b : Block) (σ : MMState) :
    MMState × Option Err × List Block × List (List Block) :=
  releaseLoopAux cfg b σ.loaded σ

/-- The block-loading loop of `_load_block_until_filled`, iterating over the
suffix of `_all_blocks` that starts at the requested block: skip blocks
already in the deque; otherwise append to the deque (a deque append, which
silently evicts from the front when already full), then open the shard file —
a missing file raises `FileNotFoundError` unless the block is `output` —
copy the parameters in place, and stop once the deque holds `maxlen`
blocks. -/
def loadBlocksGo (cfg : Cfg) : List Block → MMState → TrackRes
  | [], σ => ⟨σ, none, [], [], []⟩
  | b :: rest, σ =>
    if b ∈ σ.loaded then loadBlocksGo cfg rest σ
    else
      let w := dequeAppend cfg.memWindow σ.loaded b
      let σ1 := { σ with loaded := w }
      match cfg.files b with
      | some params =>
        let σ2 := loadParams cfg b params σ1
        if w.length = cfg.memWindow then ⟨σ2, none, [], [b], [w]⟩
        else
          let r := loadBlocksGo cfg rest σ2
          ⟨r.st, r.err, [], b :: r.appended, w :: r.trace⟩
      | none =>
        if b = Block.output then
          if w.length = cfg.memWindow then ⟨σ1, none, [], [b], [w]⟩
          else
            let r := loadBlocksGo cfg rest σ1
            ⟨r.st, r.err, [], b :: r.appended, w :: r.trace⟩
        else ⟨σ1, some (Err.fileNotFound (binPath b)), [], [b], [w]⟩

/-- `MemoryManager._load_block_until_filled`: raises `ValueError` when the
requested name is not canonical, otherwise runs the loading loop from the
index of the requested block. -/
def loadBlockUntilFilled (cfg : Cfg) (b : Block) (σ : MMState) : TrackRes :=
  if b ∈ allBlocks cfg then
    loadBlocksGo cfg ((allBlocks cfg).drop (blockIndex cfg b)) σ
  else ⟨σ, some (Err.valueError b), [], [], []⟩

/-- `_track_func` inside `MemoryManager.track`: a non-canonical block name
returns immediately (no error, no state change); otherwise release every
deque front strictly before the requested block (everything when the block is
`input`), then load blocks from the requested one until the deque is full.
(The memory-usage sample appended afterwards is diagnostic only and is not
modelled.) -/
def trackFunc (cfg : Cfg) (b : Block) (σ : MMState) : TrackRes :=
  if b ∈ allBlocks cfg then
    match releaseLoop cfg b σ with
    | (σ1, some e, rel, tr) => ⟨σ1, some e, rel, [], tr⟩
    | (σ1, none, rel, tr) =>
      let r := loadBlockUntilFilled cfg b σ1
      ⟨r.st, r.err, rel, r.appended, tr ++ r.trace⟩
  else ⟨σ, none, [], [], []⟩

/-- Folding a sequence of `track` calls over the state (each synchronous call
runs `_track_func` to completion before the next one starts). -/
def runTracks (cfg : Cfg) (calls : List Block) (σ : MMState) : MMState :=
  calls.foldl (fun s b => (trackFunc cfg b s).st) σ

/-- All deque snapshots produced while executing a sequence of `track`
calls, in order. -/
def runTracksTrace (cfg : Cfg) : List Block → MMState → List (List Block)
  | [], _ => []
  | b :: rest, σ =>
    let r := trackFunc cfg b σ
    r.trace ++ runTracksTrace cfg rest r.st

/-- `MemoryManager.track` allocates a fresh single-worker executor on every
call (`executor = ThreadPoolExecutor(max_workers=1)` in the body of `track`)
and submits `_track_func` to it.  Executor identity is modelled by an
allocation counter: `track` returns the id of the executor used by this call
together with the operation result. -/
structure ExecState where
  mm : MMState
  nextExec : Nat

/-- `MemoryManager.track`: create a fresh `ThreadPoolExecutor(max_workers=1)`,
run `_track_func` on it, and (in the synchronous case modelled here) wait for
it.  Returns (executor id used, operation result, new state). -/
def track (cfg : Cfg) (b : Block) (s : ExecState) : Nat × TrackRes × ExecState :=
  let execId := s.nextExec
  let r := trackFunc cfg b s.mm
  (execId, r, { mm := r.st, nextExec := s.nextExec + 1 })

/-- The deque evolution of `_load_block_until_filled`, as a pure function of
the deque alone (parameter copies do not influence which blocks are appended;
a missing file for a block other than `output` aborts the loop by raising). -/
def loadWin (cfg : Cfg) : List Block → List Block → List Block
  | [], w => w
  | b :: rest, w =>
    if b ∈ w then loadWin cfg rest w
    else
      let w' := dequeAppend cfg.memWindow w b
      match cfg.files b with
      | some _ => if w'.length = cfg.memWindow then w' else loadWin cfg rest w'
      | none =>
        if b = Block.output then
          if w'.length = cfg.memWindow then w' else loadWin cfg rest w'
        else w'

/-- The spec's concrete scenario configuration: 2 decoder layers (canonical
blocks `[input, attn 0, mlp 0, attn 1, mlp 1, output]`), window size `W = 3`,
every shard file present and holding one parameter (named after the file) with
payload `1`, CPU device. -/
def cfg2 : Cfg :=
  { numLayers := 2
    memWindow := 3
    files := fun b => some [(binPath b, 1)]
    allLayers := [binPath Block.input, binPath (Block.attn 0), binPath (Block.mlp 0),
                  binPath (Block.attn 1), binPath (Block.mlp 1), binPath Block.output]
    isCuda := false }

/-- `cfg2` with the `output` shard file absent. -/
def cfgNoOut : Cfg :=
  { cfg2 with
    files := fun b => if b = Block.output then none else some [(binPath b, 1)] }

/-- `cfg2` with the `mlp_0` shard file absent (a required block). -/
def cfgNoMlp : Cfg :=
  { cfg2 with
    files := fun b => if b = Block.mlp 0 then none else some [(binPath b, 1)] }

/-- Observable events of `TPILlamaDecoderLayer.forward`
(`modeling_llama.py`, lines 267-317): memory-manager `track` calls,
delegated attention/MLP computation, asynchronous allreduce issue,
`comm_handler.wait()`, and the residual additions. -/
inductive Ev where
  | track (b : Block)
  | attnCompute
  | mlpCompute
  | allreduceIssue
  | allreduceWait
  | residualAdd
deriving DecidableEq, Repr

/-- The event trace of `TPILlamaDecoderLayer.forward` for the layer with
index `i`, read off the source line by line:
`track(f"self_attn.{layer_idx}")`; attention; async allreduce;
`track(f"mlp.{layer_idx}")`; `wait()`; residual add; MLP; async allreduce;
`track(f"self_attn.{layer_idx + 1}")` — always the next attention name, also
for the last layer, where that name is outside the canonical set —
`wait()`; residual add. -/
def decoderLayerTrace (i : Nat) : List Ev :=
  [Ev.track (Block.attn i),
   Ev.attnCompute,
   Ev.allreduceIssue,
   Ev.track (Block.mlp i),
   Ev.allreduceWait,
   Ev.residualAdd,
   Ev.mlpCompute,
   Ev.allreduceIssue,
   Ev.track (Block.attn (i + 1)),
   Ev.allreduceWait,
   Ev.residualAdd]

/-- The memory-manager effects of `TPILlamaModel.forward`: the master rank
first tracks `"input"` (before the embedding lookup), then every decoder
layer tracks `self_attn.{i}`, `mlp.{i}` and `self_attn.{i+1}` in order. -/
def TPILlamaModel_forwardMem (cfg : Cfg) (rank : Nat) (σ : MMState) : MMState :=
  let σ1 := if rank = 0 then (trackFunc cfg Block.input σ).st else σ
  (List.range cfg.numLayers).foldl
    (fun s i => runTracks cfg [Block.attn i, Block.mlp i, Block.attn (i + 1)] s)
    σ1

/-- The output object built by `TPILlamaForCausalLM.forward` on the master
rank (`CausalLMOutputWithPast`; only the logits are modelled, the other
fields are delegated caching data). -/
structure CausalLMOutput where
  logits : Nat
deriving DecidableEq, Repr

/-- `TPILlamaForCausalLM.forward`: run the inner model (its memory-manager
side effects happen on every rank; its numeric result is delegated tensor
math, supplied here as `hidden`), then non-master ranks return `None`, while
the master rank applies `lm_head` and returns the output object. -/
def TPILlamaForCausalLM_forward (cfg : Cfg) (rank : Nat) (lmHead : Nat → Nat)
    (hidden : Nat) (σ : MMState) : Option CausalLMOutput × MMState :=
  let σ1 := TPILlamaModel_forwardMem cfg rank σ
  if rank ≠ 0 then (none, σ1)
  else (some ⟨lmHead hidden⟩, σ1)

/-! ## Helper lemmas about the deque and the loading/release loops -/

/-- A bounded-deque append never produces more than `W` elements. -/
theorem dequeAppend_length_le (W : Nat) (q : List Block) (b : Block) :
    (dequeAppend W q b).length ≤ W := by
  unfold dequeAppend
  split
  · simp; omega
  · simp; omega

/-- Members of a bounded-deque append come from the old deque or are the new
element. -/
theorem dequeAppend_mem {W : Nat} {q : List Block} {b x : Block}
    (hx : x ∈ dequeAppend W q b) : x ∈ q ∨ x = b := by
  unfold dequeAppend at hx
  split at hx
  · rcases List.mem_append.1 hx with h | h
    · exact Or.inl h
    · exact Or.inr (List.mem_singleton.1 h)
  · have := List.mem_of_mem_drop hx
    rcases List.mem_append.1 this with h | h
    · exact Or.inl h
    · exact Or.inr (List.mem_singleton.1 h)

/-- In-place parameter copying does not touch the deque. -/
theorem loadParams_loaded (cfg : Cfg) (b : Block) (ps : List (String × Nat)) (σ : MMState) :
    (loadParams cfg b ps σ).loaded = σ.loaded := by
  induction ps generalizing σ with
  | nil => rfl
  | cons kv rest ih =>
    show (loadParams cfg b rest _).loaded = _
    rw [ih]
    split <;> rfl

/-- The deque after the loading loop is the pure deque evolution `loadWin`. -/
theorem loadBlocksGo_loaded (cfg : Cfg) (bs : List Block) (σ : MMState) :
    (loadBlocksGo cfg bs σ).st.loaded = loadWin cfg bs σ.loaded := by
  induction bs generalizing σ with
  | nil => rfl
  | cons b rest ih =>
    unfold loadBlocksGo loadWin
    split
    · exact ih σ
    · cases hf : cfg.files b with
      | some params =>
        simp only [hf]
        split
        · simp [loadParams_loaded]
        · simp only []
          rw [ih]
          simp [loadParams_loaded]
      | none =>
        simp only [hf]
        split
        · split
          · rfl
          · rw [ih]
        · rfl

/-- The pure deque evolution of the loading loop keeps at most `W` blocks. -/
theorem loadWin_length_le (cfg : Cfg) (bs : List Block) (w : List Block)
    (hw : w.length ≤ cfg.memWindow) :
    (loadWin cfg bs w).length ≤ cfg.memWindow := by
  induction bs generalizing w with
  | nil => exact hw
  | cons b rest ih =>
    unfold loadWin
    split
    · exact ih w hw
    · cases hf : cfg.files b with
      | some params =>
        simp only [hf]
        split
        · exact dequeAppend_length_le _ _ _
        · exact ih _ (dequeAppend_length_le _ _ _)
      | none =>
        simp only [hf]
        split
        · split
          · exact dequeAppend_length_le _ _ _
          · exact ih _ (dequeAppend_length_le _ _ _)
        · exact dequeAppend_length_le _ _ _

/-- Blocks in the deque after the loading loop were already there or belong
to the processed block list. -/
theorem loadWin_mem (cfg : Cfg) (bs : List Block) (w : List Block) {x : Block}
    (hx : x ∈ loadWin cfg bs w) : x ∈ w ∨ x ∈ bs := by
  induction bs generalizing w with
  | nil => exact Or.inl hx
  | cons b rest ih =>
    unfold loadWin at hx
    split at hx
    · rcases ih w hx with h | h
      · exact Or.inl h
      · exact Or.inr (List.mem_cons_of_mem _ h)
    · have key : ∀ {v : List Block}, v = dequeAppend cfg.memWindow w b → x ∈ v →
          x ∈ w ∨ x ∈ b :: rest := by
        intro v hv hxv
        rcases dequeAppend_mem (hv ▸ hxv) with h | h
        · exact Or.inl h
        · exact Or.inr (h ▸ List.mem_cons_self _ _)
      have rec_key : x ∈ loadWin cfg rest (dequeAppend cfg.memWindow w b) →
          x ∈ w ∨ x ∈ b :: rest := by
        intro hrec
        rcases ih _ hrec with h | h
        · rcases dequeAppend_mem h with h2 | h2
          · exact Or.inl h2
          · exact Or.inr (h2 ▸ List.mem_cons_self _ _)
        · exact Or.inr (List.mem_cons_of_mem _ h)
      cases hf : cfg.files b with
      | some params =>
        simp only [hf] at hx
        split at hx
        · exact key rfl hx
        · exact rec_key hx
      | none =>
        simp only [hf] at hx
        split at hx
        · split at hx
          · exact key rfl hx
          · exact rec_key hx
        · exact key rfl hx

/-- Every deque snapshot taken inside the loading loop holds at most `W`
blocks (each snapshot is the result of a bounded-deque append). -/
theorem loadBlocksGo_trace_le (cfg : Cfg) (bs : List Block) (σ : MMState) :
    ∀ t ∈ (loadBlocksGo cfg bs σ).trace, t.length ≤ cfg.memWindow := by
  induction bs generalizing σ with
  | nil => intro t ht; simp [loadBlocksGo] at ht
  | cons b rest ih =>
    intro t ht
    unfold loadBlocksGo at ht
    split at ht
    · exact ih σ t ht
    · cases hf : cfg.files b with
      | some params =>
        simp only [hf] at ht
        split at ht
        · simp at ht
          exact ht ▸ dequeAppend_length_le _ _ _
        · simp at ht
          rcases ht with h | h
          · exact h ▸ dequeAppend_length_le _ _ _
          · exact ih _ t h
      | none =>
        simp only [hf] at ht
        split at ht
        · split at ht
          · simp at ht
            exact ht ▸ dequeAppend_length_le _ _ _
          · simp at ht
            rcases ht with h | h
            · exact h ▸ dequeAppend_length_le _ _ _
            · exact ih _ t h
        · simp at ht
          exact ht ▸ dequeAppend_length_le _ _ _

/-- The loading loop appends blocks in the order of the block list it walks
(a sublist of it): loads happen in increasing canonical order. -/
theorem loadBlocksGo_appended_sublist (cfg : Cfg) (bs : List Block) (σ : MMState) :
    (loadBlocksGo cfg bs σ).appended.Sublist bs := by
  induction bs generalizing σ with
  | nil => simp [loadBlocksGo]
  | cons b rest ih =>
    unfold loadBlocksGo
    split
    · exact (ih σ).cons b
    · cases hf : cfg.files b with
      | some params =>
        simp only [hf]
        split
        · simp
        · exact (ih _).cons₂ b
      | none =>
        simp only [hf]
        split
        · split
          · simp
          · exact (ih _).cons₂ b
        · simp

/-- `_release_block` only rewrites tensor storage: the deque and the
per-block parameter index are untouched. -/
theorem releaseBlock_fields (cfg : Cfg) (b : Block) (σ : MMState) :
    (releaseBlock cfg b σ).1.loaded = σ.loaded ∧
      (releaseBlock cfg b σ).1.layersInBlock = σ.layersInBlock := by
  unfold releaseBlock
  split <;> exact ⟨rfl, rfl⟩

/-- `_release_block` succeeds on every canonical block. -/
theorem releaseBlock_err_none (cfg : Cfg) {b : Block} (σ : MMState)
    (hb : b ∈ allBlocks cfg) : (releaseBlock cfg b σ).2 = none := by
  unfold releaseBlock
  rw [if_pos hb]

/-- The release loop never changes the per-block parameter index. -/
theorem releaseLoopAux_layers (cfg : Cfg) (b : Block) (w : List Block) (σ : MMState) :
    (releaseLoopAux cfg b w σ).1.layersInBlock = σ.layersInBlock := by
  induction w generalizing σ with
  | nil => rfl
  | cons cur rest ih =>
    unfold releaseLoopAux
    split
    · cases hr : releaseBlock cfg cur { σ with loaded := rest } with
      | mk σ1 e =>
        have h1 : σ1.layersInBlock = σ.layersInBlock := by
          have := (releaseBlock_fields cfg cur { σ with loaded := rest }).2
          rw [hr] at this
          exact this
        cases e with
        | some err => simpa using h1
        | none => simp only []; rw [ih σ1]; exact h1
    · rfl

/-- Blocks still in the deque after the release loop were in it before. -/
theorem releaseLoopAux_loaded_mem (cfg : Cfg) (b : Block) (w : List Block) (σ : MMState)
    {x : Block} (hx : x ∈ (releaseLoopAux cfg b w σ).1.loaded) : x ∈ w := by
  induction w generalizing σ with
  | nil => simp [releaseLoopAux] at hx
  | cons cur rest ih =>
    unfold releaseLoopAux at hx
    split at hx
    · cases hr : releaseBlock cfg cur { σ with loaded := rest } with
      | mk σ1 e =>
        rw [hr] at hx
        have hld : σ1.loaded = rest := by
          have := (releaseBlock_fields cfg cur { σ with loaded := rest }).1
          rw [hr] at this
          exact this
        cases e with
        | some err =>
          simp only [] at hx
          exact List.mem_cons_of_mem _ (hld ▸ hx)
        | none =>
          simp only [] at hx
          exact List.mem_cons_of_mem _ (ih σ1 hx)
    · simpa using hx

/-- The release loop only pops from the deque: its length never grows. -/
theorem releaseLoopAux_loaded_len (cfg : Cfg) (b : Block) (w : List Block) (σ : MMState) :
    (releaseLoopAux cfg b w σ).1.loaded.length ≤ w.length := by
  induction w generalizing σ with
  | nil => simp [releaseLoopAux]
  | cons cur rest ih =>
    unfold releaseLoopAux
    split
    · cases hr : releaseBlock cfg cur { σ with loaded := rest } with
      | mk σ1 e =>
        have hld : σ1.loaded = rest := by
          have := (releaseBlock_fields cfg cur { σ with loaded := rest }).1
          rw [hr] at this
          exact this
        cases e with
        | some err =>
          simp only []
          rw [hld]
          simp
        | none =>
          simp only []
          calc (releaseLoopAux cfg b rest σ1).1.loaded.length ≤ rest.length := ih σ1
            _ ≤ (cur :: rest).length := by simp
    · simp

/-- Every deque snapshot taken inside the release loop is no longer than the
deque the loop started from. -/
theorem releaseLoopAux_trace_le (cfg : Cfg) (b : Block) (w : List Block) (σ : MMState) :
    ∀ t ∈ (releaseLoopAux cfg b w σ).2.2.2, t.length ≤ w.length := by
  induction w generalizing σ with
  | nil => intro t ht; simp [releaseLoopAux] at ht
  | cons cur rest ih =>
    intro t ht
    unfold releaseLoopAux at ht
    split at ht
    · cases hr : releaseBlock cfg cur { σ with loaded := rest } with
      | mk σ1 e =>
        rw [hr] at ht
        cases e with
        | some err =>
          simp only [] at ht
          simp at ht
          simp [ht]
        | none =>
          simp only [] at ht
          simp at ht
          rcases ht with h | h
          · simp [h]
          · calc t.length ≤ rest.length := ih σ1 t h
              _ ≤ (cur :: rest).length := by simp
    · simp at ht

/-- On a deque of canonical blocks the release loop raises nothing, releases
exactly the maximal front run of blocks strictly before the requested one
(every block when the requested block is `input`), and leaves the rest of
the deque. -/
theorem releaseLoopAux_spec (cfg : Cfg) (b : Block) (w : List Block) (σ : MMState)
    (hw : ∀ x ∈ w, x ∈ allBlocks cfg) :
    (releaseLoopAux cfg b w σ).2.1 = none ∧
    (releaseLoopAux cfg b w σ).2.2.1 =
      w.takeWhile (fun c => decide (b = Block.input ∨ blockIndex cfg c < blockIndex cfg b)) ∧
    (releaseLoopAux cfg b w σ).1.loaded =
      w.dropWhile (fun c => decide (b = Block.input ∨ blockIndex cfg c < blockIndex cfg b)) := by
  induction w generalizing σ with
  | nil => exact ⟨rfl, rfl, rfl⟩
  | cons cur rest ih =>
    by_cases hc : b = Block.input ∨ blockIndex cfg cur < blockIndex cfg b
    · have hcur : cur ∈ allBlocks cfg := hw cur (List.mem_cons_self _ _)
      cases hr : releaseBlock cfg cur { σ with loaded := rest } with
      | mk σ1 e =>
        have he : e = none := by
          have := releaseBlock_err_none cfg (b := cur) { σ with loaded := rest } hcur
          rw [hr] at this
          exact this
        subst he
        have hrest : ∀ x ∈ rest, x ∈ allBlocks cfg := fun x hx => hw x (List.mem_cons_of_mem _ hx)
        obtain ⟨ih1, ih2, ih3⟩ := ih σ1 hrest
        refine ⟨?_, ?_, ?_⟩
        · unfold releaseLoopAux
          rw [if_pos hc, hr]
          exact ih1
        · unfold releaseLoopAux
          rw [if_pos hc, hr]
          simp only [List.takeWhile_cons, decide_eq_true hc]
          simp [ih2]
        · unfold releaseLoopAux
          rw [if_pos hc, hr]
          simp only [List.dropWhile_cons, decide_eq_true hc]
          simp [ih3]
    · refine ⟨?_, ?_, ?_⟩
      · unfold releaseLoopAux
        rw [if_neg hc]
      · unfold releaseLoopAux
        rw [if_neg hc]
        simp [List.takeWhile_cons, hc]
      · unfold releaseLoopAux
        rw [if_neg hc]
        simp [List.dropWhile_cons, hc]

/-- `"input"` is a canonical block name. -/
theorem input_mem_allBlocks (cfg : Cfg) : Block.input ∈ allBlocks cfg := by
  simp [allBlocks]

/-- `"input"` is the first canonical block. -/
theorem blockIndex_input (cfg : Cfg) : blockIndex cfg Block.input = 0 := by
  simp [blockIndex, allBlocks, listIndex]

/-- Dropping a list at the index of a member exposes that member at the
front. -/
theorem listIndex_drop {b : Block} {l : List Block} (hb : b ∈ l) :
    l.drop (listIndex b l) = b :: l.drop (listIndex b l + 1) := by
  induction l with
  | nil => cases hb
  | cons c rest ih =>
    by_cases hc : c = b
    · subst hc
      simp [listIndex]
    · have hb' : b ∈ rest := by
        rcases List.mem_cons.1 hb with h | h
        · exact absurd h.symm hc
        · exact h
      simp only [listIndex, if_neg hc]
      simpa using ih hb'

/-- The index of an element appended behind a list that does not contain it. -/
theorem listIndex_append_self {x : Block} {l : List Block} (hx : x ∉ l) :
    listIndex x (l ++ [x]) = l.length := by
  induction l with
  | nil => simp [listIndex]
  | cons c rest ih =>
    have hc : ¬(c = x) := fun h => hx (h ▸ List.mem_cons_self _ _)
    have hx' : x ∉ rest := fun h => hx (List.mem_cons_of_mem _ h)
    simp only [List.cons_append, listIndex, if_neg hc, List.length_cons, List.append_eq, ih hx']

/-- `"output"` appears only as the final canonical block. -/
theorem output_not_mem_front (cfg : Cfg) :
    Block.output ∉
      [Block.input] ++
        ((List.range cfg.numLayers).flatMap fun l => [Block.attn l, Block.mlp l]) := by
  intro h
  rcases List.mem_append.1 h with h | h
  · simp at h
  · rcases List.mem_flatMap.1 h with ⟨l, _, hl⟩
    simp at hl

/-- The canonical suffix starting at `"output"` is `["output"]` alone. -/
theorem drop_blockIndex_output (cfg : Cfg) :
    (allBlocks cfg).drop (blockIndex cfg Block.output) = [Block.output] := by
  have hfront := output_not_mem_front cfg
  have h1 : allBlocks cfg =
      ([Block.input] ++
        ((List.range cfg.numLayers).flatMap fun l => [Block.attn l, Block.mlp l])) ++
        [Block.output] := by
    simp [allBlocks]
  rw [blockIndex, h1, listIndex_append_self hfront, List.drop_left]

/-- One `_track_func` call keeps the deque within the window capacity. -/
theorem trackFunc_loaded_le (cfg : Cfg) (b : Block) (σ : MMState)
    (hσ : σ.loaded.length ≤ cfg.memWindow) :
    (trackFunc cfg b σ).st.loaded.length ≤ cfg.memWindow := by
  by_cases hb : b ∈ allBlocks cfg
  · rcases hrel : releaseLoop cfg b σ with ⟨σ1, e, rel, tr⟩
    have hlen : σ1.loaded.length ≤ cfg.memWindow := by
      have := releaseLoopAux_loaded_len cfg b σ.loaded σ
      rw [show releaseLoopAux cfg b σ.loaded σ = releaseLoop cfg b σ from rfl, hrel] at this
      exact le_trans this hσ
    cases e with
    | some err =>
      unfold trackFunc
      rw [if_pos hb, hrel]
      exact hlen
    | none =>
      unfold trackFunc
      rw [if_pos hb, hrel]
      simp only [loadBlockUntilFilled, if_pos hb]
      rw [loadBlocksGo_loaded]
      exact loadWin_length_le cfg _ _ hlen
  · unfold trackFunc
    rw [if_neg hb]
    exact hσ

/-- Every deque snapshot taken during one `_track_func` call is within the
window capacity, provided the deque was within capacity before the call. -/
theorem trackFunc_trace_le (cfg : Cfg) (b : Block) (σ : MMState)
    (hσ : σ.loaded.length ≤ cfg.memWindow) :
    ∀ t ∈ (trackFunc cfg b σ).trace, t.length ≤ cfg.memWindow := by
  intro t ht
  by_cases hb : b ∈ allBlocks cfg
  · rcases hrel : releaseLoop cfg b σ with ⟨σ1, e, rel, tr⟩
    have htr : ∀ u ∈ tr, u.length ≤ cfg.memWindow := by
      intro u hu
      have := releaseLoopAux_trace_le cfg b σ.loaded σ u
      rw [show releaseLoopAux cfg b σ.loaded σ = releaseLoop cfg b σ from rfl, hrel] at this
      exact le_trans (this hu) hσ
    cases e with
    | some err =>
      unfold trackFunc at ht
      rw [if_pos hb, hrel] at ht
      exact htr t ht
    | none =>
      unfold trackFunc at ht
      rw [if_pos hb, hrel] at ht
      simp only [loadBlockUntilFilled, if_pos hb] at ht
      rcases List.mem_append.1 ht with h | h
      · exact htr t h
      · exact loadBlocksGo_trace_le cfg _ σ1 t h
  · unfold trackFunc at ht
    rw [if_neg hb] at ht
    simp at ht

/-- A sequence of `track` calls keeps the deque within the window capacity. -/
theorem runTracks_loaded_le (cfg : Cfg) (calls : List Block) (σ : MMState)
    (hσ : σ.loaded.length ≤ cfg.memWindow) :
    (runTracks cfg calls σ).loaded.length ≤ cfg.memWindow := by
  induction calls generalizing σ with
  | nil => exact hσ
  | cons b rest ih => exact ih _ (trackFunc_loaded_le cfg b σ hσ)

/-- Every deque snapshot taken during a sequence of `track` calls is within
the window capacity. -/
theorem runTracksTrace_le (cfg : Cfg) (calls : List Block) (σ : MMState)
    (hσ : σ.loaded.length ≤ cfg.memWindow) :
    ∀ t ∈ runTracksTrace cfg calls σ, t.length ≤ cfg.memWindow := by
  induction calls generalizing σ with
  | nil => intro t ht; simp [runTracksTrace] at ht
  | cons b rest ih =>
    intro t ht
    unfold runTracksTrace at ht
    rcases List.mem_append.1 ht with h | h
    · exact trackFunc_trace_le cfg b σ hσ t h
    · exact ih _ (trackFunc_loaded_le cfg b σ hσ) t h

/-- `track("input")` on a deque of canonical blocks releases everything and
refills the deque from the front of the canonical sequence, a result that
depends only on the configuration. -/
theorem track_input_loaded (cfg : Cfg) (σ : MMState)
    (hw : ∀ x ∈ σ.loaded, x ∈ allBlocks cfg) :
    (trackFunc cfg Block.input σ).st.loaded = loadWin cfg (allBlocks cfg) [] := by
  have hb := input_mem_allBlocks cfg
  rcases hrel : releaseLoop cfg Block.input σ with ⟨σ1, e, rel, tr⟩
  obtain ⟨he, _, hld⟩ := releaseLoopAux_spec cfg Block.input σ.loaded σ hw
  rw [show releaseLoopAux cfg Block.input σ.loaded σ = releaseLoop cfg Block.input σ from rfl,
    hrel] at he hld
  simp only [] at he hld
  subst he
  have hempty : σ1.loaded = [] := by
    rw [hld]
    rw [List.dropWhile_eq_nil_iff]
    intro x _
    simp
  unfold trackFunc
  rw [if_pos hb, hrel]
  simp only [loadBlockUntilFilled, if_pos hb]
  rw [loadBlocksGo_loaded, blockIndex_input, List.drop_zero, hempty]

/-! ## Claim theorems -/

/-- C1 (counterexample): in the W=3, 2-layer scenario, the resident window
after `track("input")` from an empty window is not `[input]` — the load
phase fills the whole window immediately. -/
theorem C1_track_input_not_single :
    (runTracks cfg2 [Block.input] (initState cfg2)).loaded ≠ [Block.input] := by
  decide

/-- C1 (amended): in the concrete W=3 scenario with blocks
`[input, attn 0, mlp 0, attn 1, mlp 1, output]`, starting from the empty
window: after `track(input)` the resident window is
`[input, attn 0, mlp 0]` (the load phase fills the window immediately);
after a subsequent `track(attn 0)`, `input` is released and the window is
`[attn 0, mlp 0, attn 1]`; after a subsequent `track(mlp 0)`, `attn 0` is
released and the window is `[mlp 0, attn 1, mlp 1]`. -/
theorem C1_concrete_window_trajectory :
    (runTracks cfg2 [Block.input] (initState cfg2)).loaded
        = [Block.input, Block.attn 0, Block.mlp 0] ∧
    (runTracks cfg2 [Block.input, Block.attn 0] (initState cfg2)).loaded
        = [Block.attn 0, Block.mlp 0, Block.attn 1] ∧
    (runTracks cfg2 [Block.input, Block.attn 0, Block.mlp 0] (initState cfg2)).loaded
        = [Block.mlp 0, Block.attn 1, Block.mlp 1] ∧
    (trackFunc cfg2 (Block.attn 0)
        (runTracks cfg2 [Block.input] (initState cfg2))).released = [Block.input] ∧
    (trackFunc cfg2 (Block.mlp 0)
        (runTracks cfg2 [Block.input, Block.attn 0] (initState cfg2))).released
        = [Block.attn 0] := by
  decide

/-- C2: for every window capacity and every sequence of `track` calls on
canonical blocks starting from the freshly constructed manager, the deque
holds at most `memWindow` blocks after every single deque mutation during
each call and after the whole sequence.  (Resident blocks are the blocks in
the deque, so they are bounded by the deque length.) -/
theorem C2_window_bounded (cfg : Cfg) (hW : 2 ≤ cfg.memWindow) (calls : List Block)
    (hcalls : ∀ b ∈ calls, b ∈ allBlocks cfg) :
    (∀ t ∈ runTracksTrace cfg calls (initState cfg), t.length ≤ cfg.memWindow) ∧
    (runTracks cfg calls (initState cfg)).loaded.length ≤ cfg.memWindow :=
  ⟨runTracksTrace_le cfg calls _ (by simp [initState]),
   runTracks_loaded_le cfg calls _ (by simp [initState])⟩

/-- C2 (witness): the bound instantiated in the W=3, 2-layer scenario for
the call sequence `[input, attn 0, mlp 0]`. -/
theorem C2_window_bounded_witness :
    (∀ t ∈ runTracksTrace cfg2 [Block.input, Block.attn 0, Block.mlp 0] (initState cfg2),
      t.length ≤ cfg2.memWindow) ∧
    (runTracks cfg2 [Block.input, Block.attn 0, Block.mlp 0] (initState cfg2)).loaded.length
      ≤ cfg2.memWindow :=
  C2_window_bounded cfg2 (by decide) [Block.input, Block.attn 0, Block.mlp 0] (by decide)

/-- C3 (counterexample): the release phase only pops from the front of the
deque, so a resident block strictly before the tracked block can survive a
`track` call when an out-of-order block stands in front of it.  After the
call sequence `[mlp 1, attn 0]` the deque is `[mlp 1, output, attn 0]`;
`track(attn 1)` then releases nothing, although `attn 0` is resident, has
populated parameter entries, and is strictly before `attn 1` in canonical
order. -/
theorem C3_stale_resident_not_released :
    Block.attn 0 ∈ (runTracks cfg2 [Block.mlp 1, Block.attn 0] (initState cfg2)).loaded ∧
    (runTracks cfg2 [Block.mlp 1, Block.attn 0] (initState cfg2)).layersInBlock
      (Block.attn 0) ≠ [] ∧
    blockIndex cfg2 (Block.attn 0) < blockIndex cfg2 (Block.attn 1) ∧
    (trackFunc cfg2 (Block.attn 1)
      (runTracks cfg2 [Block.mlp 1, Block.attn 0] (initState cfg2))).released = [] ∧
    Block.attn 0 ∈ (trackFunc cfg2 (Block.attn 1)
      (runTracks cfg2 [Block.mlp 1, Block.attn 0] (initState cfg2))).st.loaded := by
  decide

/-- C3 (amended): for every `track(b)` call with canonical `b` on a deque of
canonical blocks, the scheduler releases exactly the maximal front run of
the deque consisting of blocks strictly before `b` in canonical order (the
whole deque when `b` is `input`), releasing from the front in window order;
it appends new blocks only in increasing canonical order starting from `b`
(a sublist of the canonical suffix at `b`); and when `b` is not `input` it
never releases `b` itself or any block at or after `b`. -/
theorem C3_release_front_load_forward (cfg : Cfg) (b : Block) (σ : MMState)
    (hb : b ∈ allBlocks cfg) (hw : ∀ x ∈ σ.loaded, x ∈ allBlocks cfg) :
    (trackFunc cfg b σ).released =
      σ.loaded.takeWhile
        (fun c => decide (b = Block.input ∨ blockIndex cfg c < blockIndex cfg b)) ∧
    (trackFunc cfg b σ).appended.Sublist ((allBlocks cfg).drop (blockIndex cfg b)) ∧
    (b ≠ Block.input →
      ∀ c ∈ (trackFunc cfg b σ).released, blockIndex cfg c < blockIndex cfg b) := by
  rcases hrel : releaseLoop cfg b σ with ⟨σ1, e, rel, tr⟩
  obtain ⟨he, hrel2, _⟩ := releaseLoopAux_spec cfg b σ.loaded σ hw
  rw [show releaseLoopAux cfg b σ.loaded σ = releaseLoop cfg b σ from rfl, hrel] at he hrel2
  simp only [] at he hrel2
  subst he
  have hrelsd : (trackFunc cfg b σ).released = rel := by
    unfold trackFunc
    rw [if_pos hb, hrel]
  have happ : (trackFunc cfg b σ).appended = (loadBlockUntilFilled cfg b σ1).appended := by
    unfold trackFunc
    rw [if_pos hb, hrel]
  refine ⟨hrelsd.trans hrel2, ?_, ?_⟩
  · rw [happ]
    unfold loadBlockUntilFilled
    rw [if_pos hb]
    exact loadBlocksGo_appended_sublist cfg _ σ1
  · intro hbne c hcrel
    rw [hrelsd, hrel2] at hcrel
    have := List.mem_takeWhile_imp hcrel
    simp at this
    rcases this with h | h
    · exact absurd h hbne
    · exact h

/-- C3 (witness): the amended release/load shape instantiated for
`track(mlp 0)` on the window left by `track(input)` in the W=3 scenario. -/
theorem C3_release_front_load_forward_witness :
    (trackFunc cfg2 (Block.mlp 0) (runTracks cfg2 [Block.input] (initState cfg2))).released =
      (runTracks cfg2 [Block.input] (initState cfg2)).loaded.takeWhile
        (fun c => decide (Block.mlp 0 = Block.input ∨
          blockIndex cfg2 c < blockIndex cfg2 (Block.mlp 0))) ∧
    (trackFunc cfg2 (Block.mlp 0)
      (runTracks cfg2 [Block.input] (initState cfg2))).appended.Sublist
        ((allBlocks cfg2).drop (blockIndex cfg2 (Block.mlp 0))) ∧
    (Block.mlp 0 ≠ Block.input →
      ∀ c ∈ (trackFunc cfg2 (Block.mlp 0)
        (runTracks cfg2 [Block.input] (initState cfg2))).released,
          blockIndex cfg2 c < blockIndex cfg2 (Block.mlp 0)) :=
  C3_release_front_load_forward cfg2 (Block.mlp 0)
    (runTracks cfg2 [Block.input] (initState cfg2)) (by decide) (by decide)

/-- C4 (counterexample): `track` with a name outside the canonical set
(`self_attn.2` in a 2-layer model) raises nothing and returns with the
window unchanged — `_track_func` returns silently instead of raising. -/
theorem C4_invalid_name_no_error :
    Block.attn 2 ∉ allBlocks cfg2 ∧
    (trackFunc cfg2 (Block.attn 2) (initState cfg2)).err = none ∧
    (trackFunc cfg2 (Block.attn 2) (initState cfg2)).st.loaded
      = (initState cfg2).loaded := by
  decide

/-- C4 (amended): for every `track(b)` call with `b` outside the canonical
block set, `_track_func` returns successfully without raising and without
any state change (the guard `if block_name_ not in self._all_blocks: return`
fires before the release and load phases). -/
theorem C4_invalid_name_silent_noop (cfg : Cfg) (b : Block) (σ : MMState)
    (hb : b ∉ allBlocks cfg) :
    trackFunc cfg b σ = ⟨σ, none, [], [], []⟩ := by
  unfold trackFunc
  rw [if_neg hb]

/-- C4 (witness): the silent no-op instantiated at `self_attn.2` in the
2-layer scenario. -/
theorem C4_invalid_name_silent_noop_witness :
    Block.attn 2 ∉ allBlocks cfg2 ∧
    trackFunc cfg2 (Block.attn 2) (initState cfg2)
      = ⟨initState cfg2, none, [], [], []⟩ :=
  ⟨by decide, C4_invalid_name_silent_noop cfg2 (Block.attn 2) (initState cfg2) (by decide)⟩

/-- C5: a `track` call on a block whose shard file is absent: when the block
is `output` the call completes without error and populates no parameter
entries for `output`; when the block is any other canonical block the call
raises `FileNotFoundError` carrying the missing file path. -/
theorem C5_missing_file_policy (cfg : Cfg) (σ : MMState) (c : Block)
    (hc : c ∈ allBlocks cfg) (hf : cfg.files c = none) (hnl : c ∉ σ.loaded)
    (hw : ∀ x ∈ σ.loaded, x ∈ allBlocks cfg) :
    (c = Block.output →
      (trackFunc cfg c σ).err = none ∧
      (trackFunc cfg c σ).st.layersInBlock Block.output
        = σ.layersInBlock Block.output) ∧
    (c ≠ Block.output →
      (trackFunc cfg c σ).err = some (Err.fileNotFound (binPath c))) := by
  rcases hrel : releaseLoop cfg c σ with ⟨σ1, e, rel, tr⟩
  obtain ⟨he, _, _⟩ := releaseLoopAux_spec cfg c σ.loaded σ hw
  rw [show releaseLoopAux cfg c σ.loaded σ = releaseLoop cfg c σ from rfl, hrel] at he
  simp only [] at he
  subst he
  have hnl1 : c ∉ σ1.loaded := by
    intro hmem
    apply hnl
    have := releaseLoopAux_loaded_mem cfg c σ.loaded σ (x := c)
    rw [show releaseLoopAux cfg c σ.loaded σ = releaseLoop cfg c σ from rfl, hrel] at this
    exact this hmem
  have hly1 : σ1.layersInBlock = σ.layersInBlock := by
    have := releaseLoopAux_layers cfg c σ.loaded σ
    rw [show releaseLoopAux cfg c σ.loaded σ = releaseLoop cfg c σ from rfl, hrel] at this
    exact this
  constructor
  · intro hco
    subst hco
    unfold trackFunc
    rw [if_pos hc, hrel]
    simp only [loadBlockUntilFilled, if_pos hc, drop_blockIndex_output]
    unfold loadBlocksGo
    rw [if_neg hnl1, hf]
    simp only [if_pos rfl]
    by_cases hlen : (dequeAppend cfg.memWindow σ1.loaded Block.output).length = cfg.memWindow
    · rw [if_pos hlen]
      exact ⟨rfl, congrFun hly1 Block.output⟩
    · rw [if_neg hlen]
      exact ⟨rfl, congrFun hly1 Block.output⟩
  · intro hcno
    unfold trackFunc
    rw [if_pos hc, hrel]
    simp only [loadBlockUntilFilled, if_pos hc]
    rw [show blockIndex cfg c = listIndex c (allBlocks cfg) from rfl, listIndex_drop hc]
    unfold loadBlocksGo
    rw [if_neg hnl1, hf]
    simp only [if_neg hcno]

/-- C5 (witness): with the `output` file absent, `track(output)` succeeds
and records no parameter entries for `output`; with the `mlp_0` file absent,
`track(mlp 0)` fails with `FileNotFoundError("mlp_0.bin")`. -/
theorem C5_missing_file_policy_witness :
    ((trackFunc cfgNoOut Block.output (initState cfgNoOut)).err = none ∧
      (trackFunc cfgNoOut Block.output (initState cfgNoOut)).st.layersInBlock Block.output
        = (initState cfgNoOut).layersInBlock Block.output) ∧
    (trackFunc cfgNoMlp (Block.mlp 0) (initState cfgNoMlp)).err
      = some (Err.fileNotFound (binPath (Block.mlp 0))) :=
  ⟨(C5_missing_file_policy cfgNoOut (initState cfgNoOut) Block.output
      (by decide) (by decide) (by decide) (by decide)).1 rfl,
   (C5_missing_file_policy cfgNoMlp (initState cfgNoMlp) (Block.mlp 0)
      (by decide) (by decide) (by decide) (by decide)).2 (by decide)⟩

/-- C6: calling `track("input")` twice in a row (no intervening calls), from
any state whose deque holds canonical blocks, leaves the resident window
after the second call identical to the window after the first call: both
calls release the entire deque and refill it from the front of the canonical
sequence, a result that depends only on the configuration. -/
theorem C6_track_input_idempotent (cfg : Cfg) (σ : MMState)
    (hw : ∀ x ∈ σ.loaded, x ∈ allBlocks cfg) :
    (trackFunc cfg Block.input (trackFunc cfg Block.input σ).st).st.loaded
      = (trackFunc cfg Block.input σ).st.loaded := by
  have h1 := track_input_loaded cfg σ hw
  have hw1 : ∀ x ∈ (trackFunc cfg Block.input σ).st.loaded, x ∈ allBlocks cfg := by
    intro x hx
    rw [h1] at hx
    rcases loadWin_mem cfg _ _ hx with h | h
    · simp at h
    · exact h
  rw [track_input_loaded cfg _ hw1, h1]

/-- C6 (witness): idempotence of `track(input)` instantiated on the window
left by `track(attn 1)` in the W=3 scenario. -/
theorem C6_track_input_idempotent_witness :
    (trackFunc cfg2 Block.input
        (trackFunc cfg2 Block.input (runTracks cfg2 [Block.attn 1] (initState cfg2))).st).st.loaded
      = (trackFunc cfg2 Block.input (runTracks cfg2 [Block.attn 1] (initState cfg2))).st.loaded :=
  C6_track_input_idempotent cfg2 (runTracks cfg2 [Block.attn 1] (initState cfg2)) (by decide)

/-- C7 (counterexample): for the last layer of a 2-layer model (index 1),
`TPILlamaDecoderLayer.forward` never calls `track("output")` after the MLP
allreduce; it calls `track("self_attn.2")`, a name outside the canonical
block set. -/
theorem C7_last_layer_no_output_track :
    Ev.track Block.output ∉ decoderLayerTrace 1 ∧
    Ev.track (Block.attn 2) ∈ decoderLayerTrace 1 := by
  decide

/-- C7 (amended): for every decoder layer `i`, the forward pass issues the
attention allreduce asynchronously, immediately calls `track(mlp i)`, then
waits on the handle before the residual add; and after the MLP it issues the
allreduce asynchronously, immediately calls `track(attn (i+1))` — always the
next attention name, also for the last layer, where that name lies outside
the canonical set and the tracker ignores it — then waits before the
residual add; `track("output")` is never called by a decoder layer. -/
theorem C7_decoder_layer_overlap (i : Nat) :
    List.IsInfix [Ev.allreduceIssue, Ev.track (Block.mlp i), Ev.allreduceWait, Ev.residualAdd]
      (decoderLayerTrace i) ∧
    List.IsInfix [Ev.mlpCompute, Ev.allreduceIssue, Ev.track (Block.attn (i + 1)),
        Ev.allreduceWait, Ev.residualAdd] (decoderLayerTrace i) ∧
    Ev.track Block.output ∉ decoderLayerTrace i := by
  refine ⟨⟨[Ev.track (Block.attn i), Ev.attnCompute], [Ev.mlpCompute, Ev.allreduceIssue,
      Ev.track (Block.attn (i + 1)), Ev.allreduceWait, Ev.residualAdd], rfl⟩,
    ⟨[Ev.track (Block.attn i), Ev.attnCompute, Ev.allreduceIssue, Ev.track (Block.mlp i),
      Ev.allreduceWait, Ev.residualAdd], [], rfl⟩, ?_⟩
  simp [decoderLayerTrace]

/-- C8 (code evaluation at the failing input): on a CPU-resident model,
releasing a block does not overwrite its storage with an empty or zero
placeholder.  After `track(input)` populates `input.bin`'s parameter with
payload `1` and `track(mlp 0)` releases the `input` block (it is gone from
the window), the parameter entry still holds its loaded payload `1` — the
CPU branch of `_release_block` executes `del tensor_`, which deletes only
the local variable.  The entry itself is also never destroyed (the claim's
second half). -/
theorem C8_cpu_release_keeps_contents :
    Block.input ∉ (runTracks cfg2 [Block.input, Block.mlp 0] (initState cfg2)).loaded ∧
    (Block.input ∈ (runTracks cfg2 [Block.input] (initState cfg2)).loaded ∧
      (runTracks cfg2 [Block.input] (initState cfg2)).stateDict (binPath Block.input)
        = some 1) ∧
    (runTracks cfg2 [Block.input, Block.mlp 0] (initState cfg2)).stateDict
      (binPath Block.input) = some 1 := by
  decide

/-- C9 (counterexample): two consecutive `track` calls do not run on one
shared worker: `MemoryManager.track` constructs a fresh
`ThreadPoolExecutor(max_workers=1)` on every call, so the executor of the
first call differs from the executor of the second. -/
theorem C9_not_single_shared_executor :
    (track cfg2 Block.input ⟨initState cfg2, 0⟩).1
      ≠ (track cfg2 (Block.attn 0) (track cfg2 Block.input ⟨initState cfg2, 0⟩).2.2).1 := by
  decide

/-- C9 (amended): every `track` call creates its own fresh single-worker
executor; no single worker is shared across calls — for any two consecutive
calls, the executors used are distinct. -/
theorem C9_fresh_executor_per_call (cfg : Cfg) (b1 b2 : Block) (s : ExecState) :
    (track cfg b1 s).1 ≠ (track cfg b2 (track cfg b1 s).2.2).1 := by
  simp [track]

/-- C10: `TPILlamaForCausalLM.forward` on a node whose rank is not 0 returns
`None`, whatever the configuration, the `lm_head`, the delegated hidden
state, or the memory-manager state. -/
theorem C10_nonmaster_returns_none (cfg : Cfg) (rank : Nat) (lmHead : Nat → Nat)
    (hidden : Nat) (σ : MMState) (h : rank ≠ 0) :
    (TPILlamaForCausalLM_forward cfg rank lmHead hidden σ).1 = none := by
  simp [TPILlamaForCausalLM_forward, h]

/-- C10 (witness): the non-master return instantiated at rank 1 in the W=3
scenario. -/
theorem C10_nonmaster_returns_none_witness :
    (TPILlamaForCausalLM_forward cfg2 1 id 0 (initState cfg2)).1 = none :=
  C10_nonmaster_returns_none cfg2 1 id 0 (initState cfg2) (by decide)
